import Mathlib

/-!
# Shallow embedding of the `hashring-rs` consistent-hashing ring (src/lib.rs)

The Rust crate keeps three coupled structures:

* `nodes : HashMap<String, Arc<dyn Node>>` — the node registry (a node is
  observable only through its string id, so a node handle is modelled by its
  id);
* `sorted_nodes_hash_set : BTreeMap<u64, Arc<dyn Node>>` — the hash-space
  index, modelled as a strictly-sorted association list from hash values to
  node ids;
* `partitions : HashMap<usize, Arc<dyn Node>>` — the partition table,
  modelled as an association list with distinct keys, built in ascending
  partition-id order exactly as `distribute_partitions` does.

The hasher (`H : BuildHasher`, default xxh3) is pluggable in the source, so
the model carries an arbitrary byte-hash function `hasher : List Nat → Nat`
whose output is reduced modulo `2^64` (the `u64` codomain of
`Hasher::finish`).  The three hashing helpers reproduce the byte encodings
used by the source: `hash_with_replica_idx` hashes the UTF-8 bytes of
`"{name}:{replica}"`, `hash_partition_id` hashes the 8 native-endian
(little-endian on the supported targets) bytes of the `usize` partition id,
and `hash_key` hashes the raw key bytes.
-/

namespace HashRing

/-- `u64` modulus for `Hasher::finish`. -/
def U64 : Nat := 2 ^ 64

/-- A node is observable only through `Node::id(&self) -> &str`. -/
abbrev NodeId := String

/-- Bytes are `u8` values. -/
abbrev Byte := Nat

/-- UTF-8 encoding of one character. -/
def charBytes (c : Char) : List Byte :=
  let n := c.toNat
  if n < 128 then [n]
  else if n < 2048 then [192 + n / 64, 128 + n % 64]
  else if n < 65536 then [224 + n / 4096, 128 + n / 64 % 64, 128 + n % 64]
  else [240 + n / 262144, 128 + n / 4096 % 64, 128 + n / 64 % 64, 128 + n % 64]

/-- UTF-8 bytes of a string, as `str::as_bytes` produces. -/
def strBytes (s : String) : List Byte :=
  s.data.flatMap charBytes

/-- The 8 native-endian bytes of a `usize` (`usize::to_ne_bytes`;
little-endian on the x86-64/aarch64 targets the crate supports). -/
def usizeNeBytes (n : Nat) : List Byte :=
  (List.range 8).map (fun i => n / 2 ^ (8 * i) % 256)

/-- `const DEFAULT_PARTITION_COUNT: usize = 271;` -/
def DEFAULT_PARTITION_COUNT : Nat := 271

/-- `const DEFAULT_REPLICATION_FACTOR: usize = 20;` -/
def DEFAULT_REPLICATION_FACTOR : Nat := 20

/-- `pub struct Config { replication_factor: usize, partition_count: usize }` -/
structure Config where
  replication_factor : Nat
  partition_count : Nat
deriving Repr, DecidableEq

/-- `impl Default for Config`. -/
def Config.default : Config :=
  { replication_factor := DEFAULT_REPLICATION_FACTOR
    partition_count := DEFAULT_PARTITION_COUNT }

/-- `Config::validate`: errors when either field is zero. -/
def Config.validate (c : Config) : Except String Unit :=
  if c.partition_count = 0 then
    .error "Partition count must be greater than 0"
  else if c.replication_factor = 0 then
    .error "Replication factor must be greater than 0"
  else
    .ok ()

/-- The hash-space index `BTreeMap<u64, Arc<dyn Node>>`, as a
strictly-sorted association list. -/
abbrev Index := List (Nat × NodeId)

/-- The partition table `HashMap<usize, Arc<dyn Node>>`, as an association
list with distinct keys. -/
abbrev Partitions := List (Nat × NodeId)

/-- Ordered insertion into the sorted index (`BTreeMap::insert`): an equal
key is overwritten (last write wins). -/
def btInsert (k : Nat) (v : NodeId) : Index → Index
  | [] => [(k, v)]
  | (k', v') :: rest =>
    if k < k' then (k, v) :: (k', v') :: rest
    else if k = k' then (k, v) :: rest
    else (k', v') :: btInsert k v rest

/-- Removal from the sorted index (`BTreeMap::remove`): deletes the entry
with exactly that key, if present. -/
def btRemove (k : Nat) : Index → Index
  | [] => []
  | (k', v') :: rest =>
    if k = k' then rest else (k', v') :: btRemove k rest

/-- Key lookup in an association list (`BTreeMap::get` / `HashMap` access):
returns the first value stored at key `k`. -/
def btGet (k : Nat) : List (Nat × NodeId) → Option NodeId
  | [] => none
  | (k', v) :: rest => if k = k' then some v else btGet k rest

/-- The ring state: configuration, pluggable hasher, node registry,
hash-space index and partition table. -/
structure Ring where
  config : Config
  hasher : List Byte → Nat
  nodes : List NodeId
  sorted_nodes_hash_set : Index
  partitions : Partitions

/-- `HashRing::with_hasher`: validates the config and returns a ring with
empty registry, index and partition table.  (`HashRing::new` is
`with_hasher` applied to the default xxh3 hasher, an instance of the
`hasher` parameter.) -/
def with_hasher (config : Config) (hasher : List Byte → Nat) :
    Except String Ring :=
  match config.validate with
  | .error e => .error e
  | .ok _ =>
      .ok { config := config
            hasher := hasher
            nodes := []
            sorted_nodes_hash_set := []
            partitions := [] }

/-- `hash_with_replica_idx`: hash of the bytes of `"{name}:{replica}"`. -/
def Ring.hash_with_replica_idx (r : Ring) (name : NodeId) (replica : Nat) : Nat :=
  r.hasher (strBytes (name ++ ":" ++ toString replica)) % U64

/-- `hash_partition_id`: hash of the native-endian bytes of the id. -/
def Ring.hash_partition_id (r : Ring) (part_id : Nat) : Nat :=
  r.hasher (usizeNeBytes part_id) % U64

/-- `hash_key`: hash of the raw key bytes. -/
def Ring.hash_key (r : Ring) (key : List Byte) : Nat :=
  r.hasher key % U64

/-- The common suffix of `find_closest_idx` and `get_key`:
`range(h..).next().or_else(|| iter().next())` on the sorted index — the
first entry whose hash is `≥ h`, or the first entry of the whole index. -/
def ringLookupEntry (l : Index) (h : Nat) : Option (Nat × NodeId) :=
  (l.find? (fun p => decide (h ≤ p.1))).or l.head?

/-- `find_closest_idx`: key of the closest-clockwise entry, `0` when the
index is empty (`unwrap_or(0)`). -/
def Ring.find_closest_idx (r : Ring) (hashed_part_id : Nat) : Nat :=
  ((ringLookupEntry r.sorted_nodes_hash_set hashed_part_id).map Prod.fst).getD 0

/-- The partition table `distribute_partitions` computes from the current
index: for each `part_id in 0..partition_count`, hash it, find the closest
index key, and store the node found there (no entry when the index is
empty). -/
def Ring.partitionsOf (r : Ring) : Partitions :=
  (List.range r.config.partition_count).foldl
    (fun acc part_id =>
      let hashed_part_id := r.hash_partition_id part_id
      let idx := r.find_closest_idx hashed_part_id
      match btGet idx r.sorted_nodes_hash_set with
      | some node => acc ++ [(part_id, node)]
      | none => acc)
    []

/-- `distribute_partitions`: clears and fully recomputes the partition
table from the index. -/
def Ring.distribute_partitions (r : Ring) : Ring :=
  { r with partitions := r.partitionsOf }

/-- The index after the insertion loop of `add_node`: one `btInsert` per
replica index `0..replication_factor`. -/
def Ring.insertReplicas (r : Ring) (node : NodeId) : Index :=
  (List.range r.config.replication_factor).foldl
    (fun sorted_set i => btInsert (r.hash_with_replica_idx node i) node sorted_set)
    r.sorted_nodes_hash_set

/-- `add_node`: errors when the id is registered (leaving the state
untouched); otherwise inserts the replica entries and the registry entry,
redistributes partitions, and returns the node handle. -/
def Ring.add_node (r : Ring) (node : NodeId) : Ring × Except String NodeId :=
  if node ∈ r.nodes then
    (r, .error "node already exist")
  else
    let r' := { r with
      sorted_nodes_hash_set := r.insertReplicas node
      nodes := node :: r.nodes }
    (r'.distribute_partitions, .ok node)

/-- The index after the removal loop of `remove_node`: one `btRemove` per
replica index `0..replication_factor`, at the recomputed replica hashes. -/
def Ring.removeReplicas (r : Ring) (id : NodeId) : Index :=
  (List.range r.config.replication_factor).foldl
    (fun sorted_set i => btRemove (r.hash_with_replica_idx id i) sorted_set)
    r.sorted_nodes_hash_set

/-- `remove_node`: errors when the id is not registered (leaving the state
untouched); otherwise removes the replica entries and the registry entry
and redistributes partitions. -/
def Ring.remove_node (r : Ring) (id : NodeId) : Ring × Except String Unit :=
  if id ∈ r.nodes then
    let r' := { r with
      sorted_nodes_hash_set := r.removeReplicas id
      nodes := r.nodes.filter (fun n => decide (n ≠ id)) }
    (r'.distribute_partitions, .ok ())
  else
    (r, .error "node not found")

/-- `get_key`: closest-clockwise lookup of `hash(key)` against the index. -/
def Ring.get_key (r : Ring) (key : List Byte) : Option NodeId :=
  let hashed_key := r.hash_key key
  (ringLookupEntry r.sorted_nodes_hash_set hashed_key).map Prod.snd

/-- `virtual_nodes_per_node`, evaluated at one id: the number of index
entries whose node has that id (the Rust function returns the whole
id-to-count map; this is its value at `id`, `0` when absent). -/
def Ring.virtual_nodes_per_node (r : Ring) (id : NodeId) : Nat :=
  r.sorted_nodes_hash_set.countP (fun p => decide (p.2 = id))

/-- The preference-list loop: walk the remaining entries, append each node
not yet collected, and stop as soon as the list reaches
`replication_factor` (`acc` is the list built so far; the id set
`unique_nodes` always equals the ids of `acc`). -/
def prefLoop (rf : Nat) : List (Nat × NodeId) → List NodeId → List NodeId
  | [], acc => acc
  | (_, n) :: rest, acc =>
    if n ∈ acc then prefLoop rf rest acc
    else if rf ≤ acc.length + 1 then acc ++ [n]
    else prefLoop rf rest (acc ++ [n])

/-- `get_preference_list`: walk
`range(hashed_key..).chain(range(..hashed_key))` — on the sorted index the
entries with hash `≥ hash(key)` followed by those with hash `< hash(key)`
— collecting first-seen node ids up to `replication_factor`. -/
def Ring.get_preference_list (r : Ring) (key : List Byte) : List NodeId :=
  let hashed_key := r.hash_key key
  prefLoop r.config.replication_factor
    (r.sorted_nodes_hash_set.filter (fun p => decide (hashed_key ≤ p.1)) ++
     r.sorted_nodes_hash_set.filter (fun p => decide (p.1 < hashed_key)))
    []

/-- Strict ordering of the index by hash value (the `BTreeMap` invariant). -/
def IndexSorted (l : Index) : Prop :=
  l.Pairwise (fun p q => p.1 < q.1)

instance (l : Index) : Decidable (IndexSorted l) := by
  unfold IndexSorted; infer_instance

/-- The hash values of the index entries. -/
def keysOf (l : Index) : List Nat := l.map Prod.fst

/-- The replica hashes a node would insert are collision-free: pairwise
distinct and absent from the current index.  (The spec accepts hash
collisions as lossy; the collision-sensitive invariants are stated under
this assumption.) -/
def FreshHashes (r : Ring) (node : NodeId) : Prop :=
  (∀ i < r.config.replication_factor, ∀ j < r.config.replication_factor,
      r.hash_with_replica_idx node i = r.hash_with_replica_idx node j → i = j) ∧
  (∀ i < r.config.replication_factor, ∀ p ∈ r.sorted_nodes_hash_set,
      r.hash_with_replica_idx node i ≠ p.1)

instance (r : Ring) (node : NodeId) : Decidable (FreshHashes r node) := by
  unfold FreshHashes; infer_instance

/-- Well-formedness of a ring state: validated config, strictly sorted
index, duplicate-free registry, the index entries are exactly the replica
positions of the registered nodes (collision-free), and the partition
table is the one recomputed from the current index. -/
def WF (r : Ring) : Prop :=
  0 < r.config.replication_factor ∧
  0 < r.config.partition_count ∧
  IndexSorted r.sorted_nodes_hash_set ∧
  r.nodes.Nodup ∧
  (∀ p ∈ r.sorted_nodes_hash_set,
      p.2 ∈ r.nodes ∧
      ∃ i < r.config.replication_factor, p.1 = r.hash_with_replica_idx p.2 i) ∧
  (∀ n ∈ r.nodes, ∀ i < r.config.replication_factor,
      (r.hash_with_replica_idx n i, n) ∈ r.sorted_nodes_hash_set) ∧
  (∀ n ∈ r.nodes, ∀ i < r.config.replication_factor,
      ∀ j < r.config.replication_factor,
      r.hash_with_replica_idx n i = r.hash_with_replica_idx n j → i = j) ∧
  r.partitions = r.partitionsOf

instance (r : Ring) : Decidable (WF r) := by
  unfold WF; infer_instance

/-- States reachable from a freshly constructed ring by successful
`add_node` / `remove_node` calls, under the spec's standing no-collision
assumption: each added node's replica hashes are fresh. -/
inductive ReachableNC : Ring → Prop where
  | init (config : Config) (hasher : List Byte → Nat) (r : Ring) :
      with_hasher config hasher = .ok r → ReachableNC r
  | add (r : Ring) (node : NodeId) :
      ReachableNC r → FreshHashes r node →
      ∀ r', r.add_node node = (r', .ok node) → ReachableNC r'
  | remove (r : Ring) (id : NodeId) :
      ReachableNC r →
      ∀ r', r.remove_node id = (r', .ok ()) → ReachableNC r'

/-- The distinct node ids referenced by the index. -/
def distinctIds (l : Index) : Finset NodeId :=
  (l.map Prod.snd).toFinset

/-- A simple injective-on-short-strings byte hasher used for the concrete
witness states. -/
def wHasher : List Byte → Nat :=
  fun bs => bs.foldl (fun a b => a * 256 + b) 1

/-- Witness configuration. -/
def cfgW : Config := { replication_factor := 1, partition_count := 2 }

/-- Witness: freshly constructed ring. -/
def RW0 : Ring :=
  { config := cfgW
    hasher := wHasher
    nodes := []
    sorted_nodes_hash_set := []
    partitions := [] }

/-- Witness: ring with node `"a"`. -/
def RW1 : Ring := (RW0.add_node "a").1

/-- Witness: ring with nodes `"a"` and `"b"`. -/
def RW2 : Ring := (RW1.add_node "b").1

/-! ## Lemmas about the closest-clockwise lookup -/

theorem ringLookupEntry_eq_none {l : Index} {h : Nat} :
    ringLookupEntry l h = none ↔ l = [] := by
  unfold ringLookupEntry
  cases l with
  | nil => simp
  | cons a t =>
    cases hf : (a :: t).find? (fun p => decide (h ≤ p.1)) <;>
      simp [hf, Option.or]

theorem ringLookupEntry_mem {l : Index} {h : Nat} {p : Nat × NodeId}
    (hp : ringLookupEntry l h = some p) : p ∈ l := by
  unfold ringLookupEntry at hp
  cases hf : l.find? (fun q => decide (h ≤ q.1)) with
  | some q =>
    rw [hf] at hp
    simp [Option.or] at hp
    exact hp ▸ List.mem_of_find?_eq_some hf
  | none =>
    rw [hf] at hp
    simp [Option.or] at hp
    cases l with
    | nil => simp at hp
    | cons a t =>
      simp at hp
      exact hp ▸ List.mem_cons_self a t

theorem find?_ge_min {l : Index} {h : Nat} {p : Nat × NodeId}
    (hs : IndexSorted l) (hf : l.find? (fun q => decide (h ≤ q.1)) = some p) :
    h ≤ p.1 ∧ ∀ q ∈ l, h ≤ q.1 → p.1 ≤ q.1 := by
  induction l with
  | nil => simp at hf
  | cons a t ih =>
    unfold IndexSorted at hs
    rw [List.pairwise_cons] at hs
    by_cases hha : h ≤ a.1
    · simp [List.find?_cons, hha] at hf
      subst hf
      refine ⟨hha, ?_⟩
      intro q hq _
      rcases List.mem_cons.mp hq with rfl | hq'
      · exact le_refl _
      · exact le_of_lt (hs.1 q hq')
    · simp [List.find?_cons, hha] at hf
      obtain ⟨h1, h2⟩ := ih hs.2 hf
      refine ⟨h1, ?_⟩
      intro q hq hhq
      rcases List.mem_cons.mp hq with rfl | hq'
      · omega
      · exact h2 q hq' hhq

theorem head?_min {l : Index} {a : Nat × NodeId}
    (hs : IndexSorted l) (ha : l.head? = some a) :
    ∀ q ∈ l, a.1 ≤ q.1 := by
  cases l with
  | nil => simp at ha
  | cons b t =>
    simp at ha
    subst ha
    unfold IndexSorted at hs
    rw [List.pairwise_cons] at hs
    intro q hq
    rcases List.mem_cons.mp hq with rfl | hq'
    · exact le_refl _
    · exact le_of_lt (hs.1 q hq')

/-- On a sorted index, the closest-clockwise entry is the entry at the
smallest hash `≥ h`, or — when every hash is `< h` — the entry at the
smallest hash overall. -/
theorem ringLookupEntry_spec {l : Index} {h : Nat} {p : Nat × NodeId}
    (hs : IndexSorted l) (hp : ringLookupEntry l h = some p) :
    (h ≤ p.1 ∧ ∀ q ∈ l, h ≤ q.1 → p.1 ≤ q.1) ∨
    ((∀ q ∈ l, q.1 < h) ∧ ∀ q ∈ l, p.1 ≤ q.1) := by
  unfold ringLookupEntry at hp
  cases hf : l.find? (fun q => decide (h ≤ q.1)) with
  | some q =>
    rw [hf] at hp
    simp [Option.or] at hp
    exact Or.inl (hp ▸ find?_ge_min hs hf)
  | none =>
    rw [hf] at hp
    simp [Option.or] at hp
    refine Or.inr ⟨?_, head?_min hs hp⟩
    intro q hq
    have := List.find?_eq_none.mp hf q hq
    simpa using this

/-! ## Lemmas about association-list lookup -/

theorem btGet_mem {k : Nat} {l : List (Nat × NodeId)} {v : NodeId}
    (h : btGet k l = some v) : (k, v) ∈ l := by
  induction l with
  | nil => simp [btGet] at h
  | cons a t ih =>
    obtain ⟨k', v'⟩ := a
    by_cases hk : k = k'
    · simp [btGet, hk] at h
      subst hk; subst h
      exact List.mem_cons_self _ _
    · simp [btGet, hk] at h
      exact List.mem_cons_of_mem _ (ih h)

theorem mem_btGet {k : Nat} {v : NodeId} {l : List (Nat × NodeId)}
    (hnd : (keysOf l).Nodup) (hm : (k, v) ∈ l) : btGet k l = some v := by
  induction l with
  | nil => simp at hm
  | cons a t ih =>
    obtain ⟨k', v'⟩ := a
    rw [keysOf, List.map_cons, List.nodup_cons] at hnd
    rcases List.mem_cons.mp hm with heq | hm'
    · obtain ⟨rfl, rfl⟩ := Prod.mk.injEq .. ▸ heq
      simp [btGet]
    · by_cases hk : k = k'
      · subst hk
        exact absurd (List.mem_map_of_mem Prod.fst hm') hnd.1
      · simp [btGet, hk]
        exact ih hnd.2 hm'

theorem mem_keysOf {l : List (Nat × NodeId)} {k : Nat} :
    k ∈ keysOf l ↔ ∃ v, (k, v) ∈ l := by
  unfold keysOf
  constructor
  · intro hk
    obtain ⟨p, hp, hpk⟩ := List.mem_map.mp hk
    exact ⟨p.2, by rwa [show (k, p.2) = p from Prod.ext hpk.symm rfl]⟩
  · rintro ⟨v, hv⟩
    exact List.mem_map_of_mem Prod.fst hv

theorem value_unique {l : List (Nat × NodeId)} (hnd : (keysOf l).Nodup)
    {k : Nat} {a b : NodeId} (ha : (k, a) ∈ l) (hb : (k, b) ∈ l) : a = b := by
  have h1 := mem_btGet hnd ha
  have h2 := mem_btGet hnd hb
  rw [h1] at h2
  exact (Option.some.injEq .. ▸ h2)

theorem IndexSorted.keys_nodup {l : Index} (hs : IndexSorted l) :
    (keysOf l).Nodup := by
  refine List.Pairwise.map Prod.fst ?_ hs
  intro a b hab
  exact Nat.ne_of_lt hab

/-! ## Lemmas about `btInsert` and `btRemove` -/

theorem keysOf_btInsert_subset {k : Nat} {v : NodeId} {l : Index} {q : Nat × NodeId}
    (hq : q ∈ btInsert k v l) : q.1 = k ∨ q.1 ∈ keysOf l := by
  induction l with
  | nil =>
    simp [btInsert] at hq
    simp [hq]
  | cons a t ih =>
    obtain ⟨k', v'⟩ := a
    simp only [keysOf, List.map_cons, List.mem_cons]
    by_cases h1 : k < k'
    · simp only [btInsert, if_pos h1, List.mem_cons] at hq
      rcases hq with rfl | rfl | hq'
      · exact Or.inl rfl
      · exact Or.inr (Or.inl rfl)
      · exact Or.inr (Or.inr (List.mem_map_of_mem Prod.fst hq'))
    · by_cases h2 : k = k'
      · simp only [btInsert, if_neg h1, if_pos h2, List.mem_cons] at hq
        rcases hq with rfl | hq'
        · exact Or.inl rfl
        · exact Or.inr (Or.inr (List.mem_map_of_mem Prod.fst hq'))
      · simp only [btInsert, if_neg h1, if_neg h2, List.mem_cons] at hq
        rcases hq with rfl | hq'
        · exact Or.inr (Or.inl rfl)
        · rcases ih hq' with h | h
          · exact Or.inl h
          · exact Or.inr (Or.inr (by simpa [keysOf] using h))

theorem btInsert_sorted {k : Nat} {v : NodeId} {l : Index}
    (hs : IndexSorted l) : IndexSorted (btInsert k v l) := by
  induction l with
  | nil => simp [btInsert, IndexSorted]
  | cons a t ih =>
    obtain ⟨k', v'⟩ := a
    unfold IndexSorted at hs ⊢
    rw [List.pairwise_cons] at hs
    by_cases h1 : k < k'
    · simp only [btInsert, if_pos h1]
      rw [List.pairwise_cons]
      refine ⟨?_, List.pairwise_cons.mpr hs⟩
      intro q hq
      rcases List.mem_cons.mp hq with rfl | hq'
      · exact h1
      · exact lt_trans h1 (hs.1 q hq')
    · by_cases h2 : k = k'
      · simp only [btInsert, if_neg h1, if_pos h2]
        rw [List.pairwise_cons]
        exact ⟨fun q hq => h2 ▸ hs.1 q hq, hs.2⟩
      · simp only [btInsert, if_neg h1, if_neg h2]
        rw [List.pairwise_cons]
        refine ⟨?_, ih hs.2⟩
        intro q hq
        rcases keysOf_btInsert_subset hq with h | h
        · omega
        · obtain ⟨w, hw⟩ := mem_keysOf.mp h
          simpa using hs.1 (q.1, w) hw

theorem mem_btInsert_fresh {k : Nat} {v : NodeId} {l : Index} {p : Nat × NodeId}
    (hk : k ∉ keysOf l) : p ∈ btInsert k v l ↔ p = (k, v) ∨ p ∈ l := by
  induction l with
  | nil => simp [btInsert]
  | cons a t ih =>
    obtain ⟨k', v'⟩ := a
    rw [keysOf, List.map_cons, List.mem_cons] at hk
    push_neg at hk
    by_cases h1 : k < k'
    · simp only [btInsert, if_pos h1, List.mem_cons]
    · by_cases h2 : k = k'
      · exact absurd h2 hk.1
      · simp only [btInsert, if_neg h1, if_neg h2, List.mem_cons]
        rw [ih (by simpa [keysOf] using hk.2)]
        tauto

theorem btRemove_sublist {k : Nat} {l : Index} : List.Sublist (btRemove k l) l := by
  induction l with
  | nil => exact List.nil_sublist _
  | cons a t ih =>
    obtain ⟨k', v'⟩ := a
    by_cases h : k = k'
    · rw [show btRemove k ((k', v') :: t) = t by simp [btRemove, h]]
      exact List.sublist_cons_self _ _
    · rw [show btRemove k ((k', v') :: t) = (k', v') :: btRemove k t by
        simp [btRemove, h]]
      exact List.Sublist.cons₂ _ ih

theorem btRemove_sorted {k : Nat} {l : Index} (hs : IndexSorted l) :
    IndexSorted (btRemove k l) :=
  List.Pairwise.sublist btRemove_sublist hs

theorem mem_btRemove {k : Nat} {l : Index} {p : Nat × NodeId}
    (hnd : (keysOf l).Nodup) : p ∈ btRemove k l ↔ p ∈ l ∧ p.1 ≠ k := by
  induction l with
  | nil => simp [btRemove]
  | cons a t ih =>
    obtain ⟨k', v'⟩ := a
    rw [keysOf, List.map_cons, List.nodup_cons] at hnd
    by_cases h : k = k'
    · rw [show btRemove k ((k', v') :: t) = t by simp [btRemove, h]]
      constructor
      · intro hp
        refine ⟨List.mem_cons_of_mem _ hp, ?_⟩
        intro hpk
        apply hnd.1
        exact List.mem_map.mpr ⟨p, hp, by rw [hpk]; exact h⟩
      · rintro ⟨hp, hne⟩
        rcases List.mem_cons.mp hp with rfl | hp'
        · exact absurd h.symm hne
        · exact hp'
    · rw [show btRemove k ((k', v') :: t) = (k', v') :: btRemove k t by
        simp [btRemove, h]]
      rw [List.mem_cons, ih hnd.2, List.mem_cons]
      constructor
      · rintro (rfl | ⟨hp, hne⟩)
        · exact ⟨Or.inl rfl, fun hh => h hh.symm⟩
        · exact ⟨Or.inr hp, hne⟩
      · rintro ⟨rfl | hp, hne⟩
        · exact Or.inl rfl
        · exact Or.inr ⟨hp, hne⟩

/-! ## Folded insertions and removals -/

theorem foldl_btInsert_sorted {v : NodeId} {key : Nat → Nat} {is : List Nat}
    {l : Index} (hs : IndexSorted l) :
    IndexSorted (is.foldl (fun s i => btInsert (key i) v s) l) := by
  induction is generalizing l with
  | nil => exact hs
  | cons i it ih => exact ih (btInsert_sorted hs)

theorem mem_foldl_btInsert {v : NodeId} {key : Nat → Nat} {is : List Nat}
    {l : Index} {p : Nat × NodeId}
    (hfresh : ∀ i ∈ is, key i ∉ keysOf l)
    (hdist : is.Pairwise (fun i j => key i ≠ key j)) :
    p ∈ is.foldl (fun s i => btInsert (key i) v s) l ↔
      p ∈ l ∨ ∃ i ∈ is, p = (key i, v) := by
  induction is generalizing l with
  | nil => simp
  | cons i it ih =>
    rw [List.pairwise_cons] at hdist
    have hki : key i ∉ keysOf l := hfresh i (List.mem_cons_self _ _)
    have hfresh' : ∀ j ∈ it, key j ∉ keysOf (btInsert (key i) v l) := by
      intro j hj hkj
      obtain ⟨w, hw⟩ := mem_keysOf.mp hkj
      rcases (mem_btInsert_fresh hki).mp hw with heq | hmem
      · exact hdist.1 j hj (congrArg Prod.fst heq).symm
      · exact hfresh j (List.mem_cons_of_mem _ hj) (mem_keysOf.mpr ⟨w, hmem⟩)
    rw [List.foldl_cons, ih hfresh' hdist.2, mem_btInsert_fresh hki]
    constructor
    · rintro ((rfl | hp) | ⟨j, hj, rfl⟩)
      · exact Or.inr ⟨i, List.mem_cons_self _ _, rfl⟩
      · exact Or.inl hp
      · exact Or.inr ⟨j, List.mem_cons_of_mem _ hj, rfl⟩
    · rintro (hp | ⟨j, hj, rfl⟩)
      · exact Or.inl (Or.inr hp)
      · rcases List.mem_cons.mp hj with rfl | hj'
        · exact Or.inl (Or.inl rfl)
        · exact Or.inr ⟨j, hj', rfl⟩

theorem foldl_btRemove_sorted {key : Nat → Nat} {is : List Nat} {l : Index}
    (hs : IndexSorted l) :
    IndexSorted (is.foldl (fun s i => btRemove (key i) s) l) := by
  induction is generalizing l with
  | nil => exact hs
  | cons i it ih => exact ih (btRemove_sorted hs)

theorem keysOf_btRemove_sublist {k : Nat} {l : Index} :
    List.Sublist (keysOf (btRemove k l)) (keysOf l) :=
  List.Sublist.map Prod.fst btRemove_sublist

theorem mem_foldl_btRemove {key : Nat → Nat} {is : List Nat} {l : Index}
    {p : Nat × NodeId} (hnd : (keysOf l).Nodup) :
    p ∈ is.foldl (fun s i => btRemove (key i) s) l ↔
      p ∈ l ∧ ∀ i ∈ is, p.1 ≠ key i := by
  induction is generalizing l with
  | nil => simp
  | cons i it ih =>
    have hnd' : (keysOf (btRemove (key i) l)).Nodup :=
      List.Nodup.sublist keysOf_btRemove_sublist hnd
    rw [List.foldl_cons, ih hnd', mem_btRemove hnd]
    constructor
    · rintro ⟨⟨hp, hne⟩, hall⟩
      refine ⟨hp, ?_⟩
      intro j hj
      rcases List.mem_cons.mp hj with rfl | hj'
      · exact hne
      · exact hall j hj'
    · rintro ⟨hp, hall⟩
      exact ⟨⟨hp, hall i (List.mem_cons_self _ _)⟩,
        fun j hj => hall j (List.mem_cons_of_mem _ hj)⟩

/-! ## The partition table -/

theorem partitionsOf_foldl_aux (r : Ring) (L : List Nat) (acc : Partitions) :
    L.foldl (fun acc part_id =>
      let hashed_part_id := r.hash_partition_id part_id
      let idx := r.find_closest_idx hashed_part_id
      match btGet idx r.sorted_nodes_hash_set with
      | some node => acc ++ [(part_id, node)]
      | none => acc) acc
    = acc ++ L.filterMap (fun part_id =>
        (btGet (r.find_closest_idx (r.hash_partition_id part_id))
          r.sorted_nodes_hash_set).map (fun node => (part_id, node))) := by
  induction L generalizing acc with
  | nil => simp
  | cons x xs ih =>
    rw [List.foldl_cons, ih]
    cases hx : btGet (r.find_closest_idx (r.hash_partition_id x))
        r.sorted_nodes_hash_set <;>
      simp [hx, List.filterMap_cons]

theorem partitionsOf_eq_filterMap (r : Ring) :
    r.partitionsOf = (List.range r.config.partition_count).filterMap
      (fun part_id =>
        (btGet (r.find_closest_idx (r.hash_partition_id part_id))
          r.sorted_nodes_hash_set).map (fun node => (part_id, node))) := by
  unfold Ring.partitionsOf
  rw [partitionsOf_foldl_aux]
  simp

theorem mem_partitionsOf {r : Ring} {part_id : Nat} {n : NodeId} :
    (part_id, n) ∈ r.partitionsOf ↔
      part_id < r.config.partition_count ∧
      btGet (r.find_closest_idx (r.hash_partition_id part_id))
        r.sorted_nodes_hash_set = some n := by
  rw [partitionsOf_eq_filterMap, List.mem_filterMap]
  constructor
  · rintro ⟨x, hx, hmap⟩
    cases hg : btGet (r.find_closest_idx (r.hash_partition_id x))
        r.sorted_nodes_hash_set with
    | none => rw [hg] at hmap; simp at hmap
    | some node =>
      rw [hg] at hmap
      simp at hmap
      obtain ⟨rfl, rfl⟩ := hmap
      exact ⟨List.mem_range.mp hx, hg⟩
  · rintro ⟨hlt, hget⟩
    refine ⟨part_id, List.mem_range.mpr hlt, ?_⟩
    rw [hget]
    rfl

theorem keysOf_partitionsOf_sublist (r : Ring) :
    List.Sublist (r.partitionsOf.map Prod.fst)
      (List.range r.config.partition_count) := by
  rw [partitionsOf_eq_filterMap]
  generalize List.range r.config.partition_count = L
  induction L with
  | nil => simp
  | cons x xs ih =>
    rw [List.filterMap_cons]
    cases hx : btGet (r.find_closest_idx (r.hash_partition_id x))
        r.sorted_nodes_hash_set with
    | none =>
      simp only [hx, Option.map_none']
      exact List.Sublist.cons x ih
    | some node =>
      simp only [hx, Option.map_some', List.map_cons]
      exact List.Sublist.cons₂ x ih

theorem keysOf_partitionsOf_nodup (r : Ring) :
    (r.partitionsOf.map Prod.fst).Nodup :=
  List.Nodup.sublist (keysOf_partitionsOf_sublist r) (List.nodup_range _)

theorem btGet_eq_none_iff {k : Nat} {l : List (Nat × NodeId)} :
    btGet k l = none ↔ k ∉ keysOf l := by
  induction l with
  | nil => simp [btGet, keysOf]
  | cons a t ih =>
    obtain ⟨k', v'⟩ := a
    by_cases h : k = k'
    · simp [btGet, h, keysOf]
    · simp only [btGet, if_neg h, keysOf, List.map_cons, List.mem_cons]
      rw [ih]
      unfold keysOf
      constructor
      · intro hh hor
        rcases hor with rfl | hmem
        · exact h rfl
        · exact hh hmem
      · intro hh hmem
        exact hh (Or.inr hmem)

theorem btGet_partitionsOf (r : Ring) (part_id : Nat) :
    btGet part_id r.partitionsOf =
      if part_id < r.config.partition_count then
        btGet (r.find_closest_idx (r.hash_partition_id part_id))
          r.sorted_nodes_hash_set
      else none := by
  by_cases hlt : part_id < r.config.partition_count
  · rw [if_pos hlt]
    cases hg : btGet (r.find_closest_idx (r.hash_partition_id part_id))
        r.sorted_nodes_hash_set with
    | some n =>
      exact mem_btGet (keysOf_partitionsOf_nodup r)
        (mem_partitionsOf.mpr ⟨hlt, hg⟩)
    | none =>
      cases hp : btGet part_id r.partitionsOf with
      | none => rfl
      | some m =>
        have := mem_partitionsOf.mp (btGet_mem hp)
        rw [hg] at this
        exact absurd this.2 (by simp)
  · rw [if_neg hlt]
    rw [btGet_eq_none_iff]
    intro hk
    have hsub := keysOf_partitionsOf_sublist r
    have : part_id ∈ List.range r.config.partition_count :=
      hsub.mem (by simpa [keysOf] using hk)
    exact hlt (List.mem_range.mp this)

/-- On a sorted index, the node `distribute_partitions` stores for a
partition hash is the node of the closest-clockwise entry. -/
theorem btGet_find_closest (r : Ring) (hs : IndexSorted r.sorted_nodes_hash_set)
    (h : Nat) :
    btGet (r.find_closest_idx h) r.sorted_nodes_hash_set =
      (ringLookupEntry r.sorted_nodes_hash_set h).map Prod.snd := by
  cases hp : ringLookupEntry r.sorted_nodes_hash_set h with
  | none =>
    rw [ringLookupEntry_eq_none.mp hp]
    simp [btGet]
  | some p =>
    have hmem := ringLookupEntry_mem hp
    unfold Ring.find_closest_idx
    rw [hp]
    simp only [Option.map_some', Option.getD_some]
    exact mem_btGet hs.keys_nodup hmem

/-! ## The preference-list loop -/

theorem prefLoop_nodup {rf : Nat} {entries : List (Nat × NodeId)}
    {acc : List NodeId} (hacc : acc.Nodup) : (prefLoop rf entries acc).Nodup := by
  induction entries generalizing acc with
  | nil => exact hacc
  | cons e rest ih =>
    obtain ⟨h, n⟩ := e
    by_cases hmem : n ∈ acc
    · simp only [prefLoop, if_pos hmem]
      exact ih hacc
    · by_cases hlen : rf ≤ acc.length + 1
      · simp only [prefLoop, if_neg hmem, if_pos hlen]
        rw [List.nodup_append]
        exact ⟨hacc, List.nodup_singleton n, by
          intro x hx hx'
          rw [List.mem_singleton] at hx'
          exact hmem (hx' ▸ hx)⟩
      · simp only [prefLoop, if_neg hmem, if_neg hlen]
        refine ih ?_
        rw [List.nodup_append]
        exact ⟨hacc, List.nodup_singleton n, by
          intro x hx hx'
          rw [List.mem_singleton] at hx'
          exact hmem (hx' ▸ hx)⟩

theorem prefLoop_length_le {rf : Nat} {entries : List (Nat × NodeId)}
    {acc : List NodeId} (hlt : acc.length < rf) :
    (prefLoop rf entries acc).length ≤ rf := by
  induction entries generalizing acc with
  | nil => exact le_of_lt hlt
  | cons e rest ih =>
    obtain ⟨h, n⟩ := e
    by_cases hmem : n ∈ acc
    · simp only [prefLoop, if_pos hmem]
      exact ih hlt
    · by_cases hlen : rf ≤ acc.length + 1
      · simp only [prefLoop, if_neg hmem, if_pos hlen, List.length_append,
          List.length_singleton]
        omega
      · simp only [prefLoop, if_neg hmem, if_neg hlen]
        exact ih (by simp; omega)

theorem prefLoop_subset {rf : Nat} {entries : List (Nat × NodeId)}
    {acc : List NodeId} :
    ∀ x ∈ prefLoop rf entries acc, x ∈ acc ∨ x ∈ entries.map Prod.snd := by
  induction entries generalizing acc with
  | nil => exact fun x hx => Or.inl hx
  | cons e rest ih =>
    obtain ⟨h, n⟩ := e
    intro x hx
    by_cases hmem : n ∈ acc
    · simp only [prefLoop, if_pos hmem] at hx
      rcases ih x hx with h1 | h1
      · exact Or.inl h1
      · exact Or.inr (by simp [h1])
    · by_cases hlen : rf ≤ acc.length + 1
      · simp only [prefLoop, if_neg hmem, if_pos hlen] at hx
        rcases List.mem_append.mp hx with h1 | h1
        · exact Or.inl h1
        · exact Or.inr (by simp [List.mem_singleton.mp h1])
      · simp only [prefLoop, if_neg hmem, if_neg hlen] at hx
        rcases ih x hx with h1 | h1
        · rcases List.mem_append.mp h1 with h2 | h2
          · exact Or.inl h2
          · exact Or.inr (by simp [List.mem_singleton.mp h2])
        · exact Or.inr (by simp [h1])

theorem prefLoop_finish {rf : Nat} {entries : List (Nat × NodeId)}
    {acc : List NodeId} (hlt : acc.length < rf) :
    (prefLoop rf entries acc).length = rf ∨
    (prefLoop rf entries acc).toFinset =
      acc.toFinset ∪ (entries.map Prod.snd).toFinset := by
  induction entries generalizing acc with
  | nil =>
    right
    simp [prefLoop]
  | cons e rest ih =>
    obtain ⟨h, n⟩ := e
    by_cases hmem : n ∈ acc
    · simp only [prefLoop, if_pos hmem]
      rcases ih hlt with h1 | h1
      · exact Or.inl h1
      · right
        rw [h1]
        ext x
        simp only [Finset.mem_union, List.mem_toFinset, List.map_cons,
          List.toFinset_cons, Finset.mem_insert]
        constructor
        · rintro (hx | hx)
          · exact Or.inl hx
          · exact Or.inr (Or.inr hx)
        · rintro (hx | hx | hx)
          · exact Or.inl hx
          · exact Or.inl (hx ▸ hmem)
          · exact Or.inr hx
    · by_cases hlen : rf ≤ acc.length + 1
      · left
        simp only [prefLoop, if_neg hmem, if_pos hlen, List.length_append,
          List.length_singleton]
        omega
      · simp only [prefLoop, if_neg hmem, if_neg hlen]
        have hlt' : (acc ++ [n]).length < rf := by simp; omega
        rcases ih hlt' with h1 | h1
        · exact Or.inl h1
        · right
          rw [h1]
          ext x
          simp only [Finset.mem_union, List.mem_toFinset, List.mem_append,
            List.mem_singleton, List.map_cons, List.toFinset_cons,
            Finset.mem_insert]
          tauto

/-! ## Characterizations of `add_node` / `remove_node` results -/

theorem add_node_eq_ok {r : Ring} {node : NodeId} (hnotin : node ∉ r.nodes) :
    r.add_node node =
      (Ring.distribute_partitions { r with
        sorted_nodes_hash_set := r.insertReplicas node
        nodes := node :: r.nodes }, .ok node) := by
  unfold Ring.add_node
  rw [if_neg hnotin]

theorem add_node_eq_err {r : Ring} {node : NodeId} (hin : node ∈ r.nodes) :
    r.add_node node = (r, .error "node already exist") := by
  unfold Ring.add_node
  rw [if_pos hin]

theorem remove_node_eq_ok {r : Ring} {id : NodeId} (hin : id ∈ r.nodes) :
    r.remove_node id =
      (Ring.distribute_partitions { r with
        sorted_nodes_hash_set := r.removeReplicas id
        nodes := r.nodes.filter (fun n => decide (n ≠ id)) }, .ok ()) := by
  unfold Ring.remove_node
  rw [if_pos hin]

theorem remove_node_eq_err {r : Ring} {id : NodeId} (hnotin : id ∉ r.nodes) :
    r.remove_node id = (r, .error "node not found") := by
  unfold Ring.remove_node
  rw [if_neg hnotin]

/-- `partitionsOf` reads only the config, hasher and index, never the
partition table itself. -/
theorem partitionsOf_set_partitions (r : Ring) (p : Partitions) :
    Ring.partitionsOf { r with partitions := p } = r.partitionsOf := rfl

theorem partitionsOf_empty {r : Ring} (h : r.sorted_nodes_hash_set = []) :
    r.partitionsOf = [] := by
  rw [partitionsOf_eq_filterMap]
  simp [h, btGet]

theorem with_hasher_ok {config : Config} {hasher : List Byte → Nat} {r : Ring}
    (h : with_hasher config hasher = .ok r) :
    r.config = config ∧ r.hasher = hasher ∧ r.nodes = [] ∧
    r.sorted_nodes_hash_set = [] ∧ r.partitions = [] ∧
    config.partition_count ≠ 0 ∧ config.replication_factor ≠ 0 := by
  unfold with_hasher Config.validate at h
  by_cases h1 : config.partition_count = 0
  · rw [if_pos h1] at h
    exact absurd h (by simp)
  · rw [if_neg h1] at h
    by_cases h2 : config.replication_factor = 0
    · rw [if_pos h2] at h
      exact absurd h (by simp)
    · rw [if_neg h2] at h
      simp only [Except.ok.injEq] at h
      subst h
      exact ⟨rfl, rfl, rfl, rfl, rfl, h1, h2⟩

/-! ## Membership in the replica-insertion and replica-removal folds -/

theorem mem_insertReplicas {r : Ring} {node : NodeId} {p : Nat × NodeId}
    (hf : FreshHashes r node) :
    p ∈ r.insertReplicas node ↔
      p ∈ r.sorted_nodes_hash_set ∨
      ∃ i < r.config.replication_factor,
        p = (r.hash_with_replica_idx node i, node) := by
  unfold Ring.insertReplicas
  rw [mem_foldl_btInsert ?fresh ?dist]
  case fresh =>
    intro i hi hkey
    obtain ⟨w, hw⟩ := mem_keysOf.mp hkey
    exact hf.2 i (List.mem_range.mp hi) (r.hash_with_replica_idx node i, w) hw rfl
  case dist =>
    refine List.Pairwise.imp_of_mem ?_ (List.pairwise_lt_range _)
    intro i j hi hj hij heq
    exact Nat.ne_of_lt hij
      (hf.1 i (List.mem_range.mp hi) j (List.mem_range.mp hj) heq)
  constructor
  · rintro (hp | ⟨i, hi, rfl⟩)
    · exact Or.inl hp
    · exact Or.inr ⟨i, List.mem_range.mp hi, rfl⟩
  · rintro (hp | ⟨i, hi, rfl⟩)
    · exact Or.inl hp
    · exact Or.inr ⟨i, List.mem_range.mpr hi, rfl⟩

theorem insertReplicas_sorted {r : Ring} {node : NodeId}
    (hs : IndexSorted r.sorted_nodes_hash_set) :
    IndexSorted (r.insertReplicas node) :=
  foldl_btInsert_sorted hs

theorem mem_removeReplicas {r : Ring} {id : NodeId} {p : Nat × NodeId}
    (hs : IndexSorted r.sorted_nodes_hash_set) :
    p ∈ r.removeReplicas id ↔
      p ∈ r.sorted_nodes_hash_set ∧
      ∀ i < r.config.replication_factor,
        p.1 ≠ r.hash_with_replica_idx id i := by
  unfold Ring.removeReplicas
  rw [mem_foldl_btRemove hs.keys_nodup]
  constructor
  · rintro ⟨hp, hall⟩
    exact ⟨hp, fun i hi => hall i (List.mem_range.mpr hi)⟩
  · rintro ⟨hp, hall⟩
    exact ⟨hp, fun i hi => hall i (List.mem_range.mp hi)⟩

theorem removeReplicas_sorted {r : Ring} {id : NodeId}
    (hs : IndexSorted r.sorted_nodes_hash_set) :
    IndexSorted (r.removeReplicas id) :=
  foldl_btRemove_sorted hs

/-! ## Preservation of well-formedness -/

theorem WF_init {config : Config} {hasher : List Byte → Nat} {r : Ring}
    (h : with_hasher config hasher = .ok r) : WF r := by
  obtain ⟨hc, hh, hn, hidx, hp, hpc, hrf⟩ := with_hasher_ok h
  unfold WF
  refine ⟨?_, ?_, ?_, ?_, ?_, ?_, ?_, ?_⟩
  · rw [hc]; exact Nat.pos_of_ne_zero hrf
  · rw [hc]; exact Nat.pos_of_ne_zero hpc
  · rw [hidx]; exact List.Pairwise.nil
  · rw [hn]; exact List.nodup_nil
  · intro p hp'
    rw [hidx] at hp'
    exact absurd hp' (List.not_mem_nil p)
  · intro n hn'
    rw [hn] at hn'
    exact absurd hn' (List.not_mem_nil n)
  · intro n hn'
    rw [hn] at hn'
    exact absurd hn' (List.not_mem_nil n)
  · rw [hp, partitionsOf_empty hidx]

theorem WF_add {r : Ring} {node : NodeId} (hwf : WF r)
    (hfresh : FreshHashes r node) (hnotin : node ∉ r.nodes) :
    WF (r.add_node node).1 := by
  obtain ⟨hrf, hpc, hs, hnd, hforward, hback, hinj, hpart⟩ := hwf
  rw [add_node_eq_ok hnotin]
  unfold Ring.distribute_partitions WF
  refine ⟨hrf, hpc, ?_, ?_, ?_, ?_, ?_, ?_⟩
  · exact insertReplicas_sorted hs
  · exact List.nodup_cons.mpr ⟨hnotin, hnd⟩
  · intro p hp
    have hp' : p ∈ r.insertReplicas node := hp
    rw [mem_insertReplicas hfresh] at hp'
    show p.2 ∈ node :: r.nodes ∧
      ∃ i < r.config.replication_factor, p.1 = r.hash_with_replica_idx p.2 i
    rcases hp' with hold | ⟨i, hi, rfl⟩
    · obtain ⟨h1, i, hi, h2⟩ := hforward p hold
      exact ⟨List.mem_cons_of_mem _ h1, i, hi, h2⟩
    · exact ⟨List.mem_cons_self _ _, i, hi, rfl⟩
  · intro n hn i hi
    have hn' : n ∈ node :: r.nodes := hn
    show (r.hash_with_replica_idx n i, n) ∈ r.insertReplicas node
    rw [mem_insertReplicas hfresh]
    rcases List.mem_cons.mp hn' with rfl | hold
    · exact Or.inr ⟨i, hi, rfl⟩
    · exact Or.inl (hback n hold i hi)
  · intro n hn i hi j hj heq
    have hn' : n ∈ node :: r.nodes := hn
    rcases List.mem_cons.mp hn' with rfl | hold
    · exact hfresh.1 i hi j hj heq
    · exact hinj n hold i hi j hj heq
  · exact (partitionsOf_set_partitions _ _).symm

theorem WF_remove {r : Ring} {id : NodeId} (hwf : WF r) (hin : id ∈ r.nodes) :
    WF (r.remove_node id).1 := by
  obtain ⟨hrf, hpc, hs, hnd, hforward, hback, hinj, hpart⟩ := hwf
  rw [remove_node_eq_ok hin]
  unfold Ring.distribute_partitions WF
  refine ⟨hrf, hpc, ?_, ?_, ?_, ?_, ?_, ?_⟩
  · exact removeReplicas_sorted hs
  · exact List.Nodup.filter _ hnd
  · intro p hp
    have hp' : p ∈ r.removeReplicas id := hp
    rw [mem_removeReplicas hs] at hp'
    obtain ⟨hpold, hnotid⟩ := hp'
    obtain ⟨hpn, i, hi, hphash⟩ := hforward p hpold
    show p.2 ∈ r.nodes.filter (fun n => decide (n ≠ id)) ∧
      ∃ i < r.config.replication_factor, p.1 = r.hash_with_replica_idx p.2 i
    have hne : p.2 ≠ id := by
      intro contra
      rw [contra] at hphash
      exact hnotid i hi hphash
    exact ⟨List.mem_filter.mpr ⟨hpn, by simp [hne]⟩, i, hi, hphash⟩
  · intro n hn i hi
    have hn' : n ∈ r.nodes.filter (fun m => decide (m ≠ id)) := hn
    rw [List.mem_filter] at hn'
    have hnne : n ≠ id := by simpa using hn'.2
    show (r.hash_with_replica_idx n i, n) ∈ r.removeReplicas id
    rw [mem_removeReplicas hs]
    refine ⟨hback n hn'.1 i hi, ?_⟩
    intro j hj heq
    have hm1 : (r.hash_with_replica_idx id j, n) ∈ r.sorted_nodes_hash_set := by
      rw [← heq]
      exact hback n hn'.1 i hi
    have hm2 : (r.hash_with_replica_idx id j, id) ∈ r.sorted_nodes_hash_set :=
      hback id hin j hj
    exact hnne (value_unique hs.keys_nodup hm1 hm2)
  · intro n hn i hi j hj heq
    have hn' : n ∈ r.nodes.filter (fun m => decide (m ≠ id)) := hn
    rw [List.mem_filter] at hn'
    exact hinj n hn'.1 i hi j hj heq
  · exact (partitionsOf_set_partitions _ _).symm

theorem reachable_WF {r : Ring} (h : ReachableNC r) : WF r := by
  induction h with
  | init config hasher r h0 => exact WF_init h0
  | add r node hr hf r' heq ih =>
    have hnotin : node ∉ r.nodes := by
      intro hin
      rw [add_node_eq_err hin] at heq
      exact absurd (congrArg Prod.snd heq) (by simp)
    have hwf := WF_add ih hf hnotin
    rwa [show (r.add_node node).1 = r' from congrArg Prod.fst heq] at hwf
  | remove r id hr r' heq ih =>
    have hin : id ∈ r.nodes := by
      by_contra hnotin
      rw [remove_node_eq_err hnotin] at heq
      exact absurd (congrArg Prod.snd heq) (by simp)
    have hwf := WF_remove ih hin
    rwa [show (r.remove_node id).1 = r' from congrArg Prod.fst heq] at hwf

/-! ## Counting index entries per node -/

theorem countP_entries {l : Index} (hs : IndexSorted l) {v : NodeId}
    {f : Nat → Nat} {m : Nat}
    (hchar : ∀ p ∈ l, p.2 = v → ∃ i < m, p.1 = f i)
    (hall : ∀ i < m, (f i, v) ∈ l)
    (hinj : ∀ i < m, ∀ j < m, f i = f j → i = j) :
    l.countP (fun p => decide (p.2 = v)) = m := by
  have lnd : l.Nodup := List.Nodup.of_map Prod.fst hs.keys_nodup
  rw [List.countP_eq_length_filter]
  have fnd : (l.filter (fun p => decide (p.2 = v))).Nodup := lnd.filter _
  have hcard := List.toFinset_card_of_nodup fnd
  have hset : (l.filter (fun p => decide (p.2 = v))).toFinset =
      (Finset.range m).image (fun i => (f i, v)) := by
    ext p
    simp only [List.mem_toFinset, List.mem_filter, Finset.mem_image,
      Finset.mem_range, decide_eq_true_eq]
    constructor
    · rintro ⟨hp, hv⟩
      obtain ⟨i, hi, hkey⟩ := hchar p hp hv
      exact ⟨i, hi, by rw [← hkey, ← hv]⟩
    · rintro ⟨i, hi, rfl⟩
      exact ⟨hall i hi, rfl⟩
  have himg : ((Finset.range m).image (fun i => (f i, v))).card = m := by
    rw [Finset.card_image_of_injOn, Finset.card_range]
    intro i hi j hj heq
    exact hinj i (Finset.mem_range.mp hi) j (Finset.mem_range.mp hj)
      (congrArg Prod.fst heq)
  rw [← hcard, hset, himg]

/-- A `filterMap` in which every element produces a value keeps the length. -/
theorem length_filterMap_all_some {f : Nat → Option (Nat × NodeId)} {L : List Nat}
    (h : ∀ x ∈ L, (f x).isSome) : (L.filterMap f).length = L.length := by
  induction L with
  | nil => rfl
  | cons x xs ih =>
    rw [List.filterMap_cons]
    cases hx : f x with
    | none =>
      have := h x (List.mem_cons_self _ _)
      rw [hx] at this
      exact absurd this (by simp)
    | some y =>
      simp only [List.length_cons]
      rw [ih (fun z hz => h z (List.mem_cons_of_mem _ hz))]

/-! ## Strictly sorted indexes are determined by their members -/

theorem sorted_eq_of_mem_iff {l₁ l₂ : Index} (h₁ : IndexSorted l₁)
    (h₂ : IndexSorted l₂) (hm : ∀ p, p ∈ l₁ ↔ p ∈ l₂) : l₁ = l₂ := by
  induction l₁ generalizing l₂ with
  | nil =>
    cases l₂ with
    | nil => rfl
    | cons b t₂ =>
      exact absurd ((hm b).mpr (List.mem_cons_self b t₂)) (List.not_mem_nil b)
  | cons a t₁ ih =>
    cases l₂ with
    | nil =>
      exact absurd ((hm a).mp (List.mem_cons_self a t₁)) (List.not_mem_nil a)
    | cons b t₂ =>
      unfold IndexSorted at h₁ h₂
      rw [List.pairwise_cons] at h₁ h₂
      have hab : a = b := by
        rcases List.mem_cons.mp ((hm a).mp (List.mem_cons_self a t₁)) with
          h | h
        · exact h
        · rcases List.mem_cons.mp ((hm b).mpr (List.mem_cons_self b t₂)) with
            h' | h'
          · exact h'.symm
          · have hba := h₂.1 a h
            have hab := h₁.1 b h'
            omega
      subst hab
      have ht : t₁ = t₂ := by
        apply ih h₁.2 h₂.2
        intro p
        constructor
        · intro hp
          rcases List.mem_cons.mp ((hm p).mp (List.mem_cons_of_mem _ hp)) with
            h | h
          · have := h₁.1 p hp
            rw [h] at this
            omega
          · exact h
        · intro hp
          rcases List.mem_cons.mp ((hm p).mpr (List.mem_cons_of_mem _ hp)) with
            h | h
          · have := h₂.1 p hp
            rw [h] at this
            omega
          · exact h
      rw [ht]

/-! ## The closest-clockwise lookup is stable under removing other nodes -/

theorem find?_filter_of_found {l : List (Nat × NodeId)}
    {pr f : (Nat × NodeId) → Bool} {p : Nat × NodeId}
    (hp : l.find? pr = some p) (hkeep : f p = true) :
    (l.filter f).find? pr = some p := by
  induction l with
  | nil => simp at hp
  | cons a t ih =>
    by_cases hpra : pr a = true
    · rw [List.find?_cons_of_pos _ hpra] at hp
      obtain rfl := Option.some.injEq .. ▸ hp
      rw [List.filter_cons_of_pos hkeep]
      exact List.find?_cons_of_pos _ hpra
    · rw [List.find?_cons_of_neg _ (by simpa using hpra)] at hp
      by_cases hfa : f a = true
      · rw [List.filter_cons_of_pos hfa]
        rw [List.find?_cons_of_neg _ (by simpa using hpra)]
        exact ih hp
      · rw [List.filter_cons_of_neg (by simpa using hfa)]
        exact ih hp

theorem find?_filter_of_none {l : List (Nat × NodeId)}
    {pr f : (Nat × NodeId) → Bool} (hp : l.find? pr = none) :
    (l.filter f).find? pr = none := by
  rw [List.find?_eq_none] at hp ⊢
  intro x hx
  exact hp x (List.mem_of_mem_filter hx)

theorem ringLookupEntry_filter_ne {l : Index} {h : Nat} {p : Nat × NodeId}
    {i : NodeId} (hp : ringLookupEntry l h = some p) (hpi : p.2 ≠ i) :
    ringLookupEntry (l.filter (fun q => decide (q.2 ≠ i))) h = some p := by
  unfold ringLookupEntry at hp ⊢
  cases hf : l.find? (fun q => decide (h ≤ q.1)) with
  | some q =>
    rw [hf] at hp
    simp only [Option.or] at hp
    obtain rfl := Option.some.injEq .. ▸ hp
    rw [find?_filter_of_found hf (by simpa using hpi)]
    rfl
  | none =>
    rw [hf] at hp
    simp only [Option.or] at hp
    rw [find?_filter_of_none (f := fun q => decide (q.2 ≠ i)) hf]
    cases l with
    | nil => simp at hp
    | cons a t =>
      simp only [List.head?_cons, Option.some.injEq] at hp
      subst hp
      rw [List.filter_cons_of_pos (by simpa using hpi)]
      rfl

/-- Under well-formedness, the removal loop of `remove_node i` deletes
exactly the entries whose node is `i`. -/
theorem removeReplicas_eq_filter {r : Ring} {i : NodeId} (hwf : WF r)
    (hin : i ∈ r.nodes) :
    r.removeReplicas i =
      r.sorted_nodes_hash_set.filter (fun q => decide (q.2 ≠ i)) := by
  obtain ⟨hrf, hpc, hs, hnd, hforward, hback, hinj, hpart⟩ := hwf
  apply sorted_eq_of_mem_iff (removeReplicas_sorted hs)
    (List.Pairwise.sublist (List.filter_sublist _) hs)
  intro p
  rw [mem_removeReplicas hs, List.mem_filter]
  constructor
  · rintro ⟨hp, hall⟩
    refine ⟨hp, ?_⟩
    simp only [decide_eq_true_eq]
    intro contra
    obtain ⟨_, j, hj, hkey⟩ := hforward p hp
    rw [contra] at hkey
    exact hall j hj hkey
  · rintro ⟨hp, hne⟩
    have hne' : p.2 ≠ i := by simpa using hne
    refine ⟨hp, ?_⟩
    intro j hj heq
    have hm2 := hback i hin j hj
    have hm1 : (r.hash_with_replica_idx i j, p.2) ∈ r.sorted_nodes_hash_set := by
      rw [← heq]
      exact hp
    exact hne' (value_unique hs.keys_nodup hm1 hm2)

theorem WF_index_nil_iff {r : Ring} (hwf : WF r) :
    r.sorted_nodes_hash_set = [] ↔ r.nodes = [] := by
  obtain ⟨hrf, _, _, _, hforward, hback, _, _⟩ := hwf
  constructor
  · intro h
    by_contra hne
    obtain ⟨n, hn⟩ := List.exists_mem_of_ne_nil _ hne
    have := hback n hn 0 hrf
    rw [h] at this
    exact List.not_mem_nil _ this
  · intro h
    by_contra hne
    obtain ⟨p, hp⟩ := List.exists_mem_of_ne_nil _ hne
    have := (hforward p hp).1
    rw [h] at this
    exact List.not_mem_nil _ this

/-! ## Claim theorems -/

/-- C1: For every ring state and every byte-string key `k`, `get_key k`
returns `none` if and only if the hash-space index is empty; otherwise it
returns `some n` where `n` is the node stored at the smallest index-entry
hash value `≥ hash(k)`, or, if no entry hash is `≥ hash(k)`, the node
stored at the smallest hash value in the index (ring wraparound). -/
theorem get_key_closest_clockwise (r : Ring) (k : List Byte)
    (hs : IndexSorted r.sorted_nodes_hash_set) :
    (r.get_key k = none ↔ r.sorted_nodes_hash_set = []) ∧
    (r.sorted_nodes_hash_set ≠ [] →
      ∃ p ∈ r.sorted_nodes_hash_set, r.get_key k = some p.2 ∧
        ((r.hash_key k ≤ p.1 ∧
            ∀ q ∈ r.sorted_nodes_hash_set, r.hash_key k ≤ q.1 → p.1 ≤ q.1) ∨
         ((∀ q ∈ r.sorted_nodes_hash_set, q.1 < r.hash_key k) ∧
            ∀ q ∈ r.sorted_nodes_hash_set, p.1 ≤ q.1))) := by
  constructor
  · show (ringLookupEntry r.sorted_nodes_hash_set (r.hash_key k)).map Prod.snd
        = none ↔ r.sorted_nodes_hash_set = []
    rw [Option.map_eq_none']
    exact ringLookupEntry_eq_none
  · intro hne
    cases hp : ringLookupEntry r.sorted_nodes_hash_set (r.hash_key k) with
    | none => exact absurd (ringLookupEntry_eq_none.mp hp) hne
    | some p =>
      refine ⟨p, ringLookupEntry_mem hp, ?_, ringLookupEntry_spec hs hp⟩
      show (ringLookupEntry r.sorted_nodes_hash_set (r.hash_key k)).map Prod.snd
          = some p.2
      rw [hp]
      rfl

/-- C3: `distribute_partitions` recomputes the whole partition table: for
each partition id below `partition_count` it hashes the id's native-endian
bytes and maps the partition to the node of the closest-clockwise index
entry (smallest entry hash `≥ h`, wrapping to the overall smallest entry
when none is `≥ h`); ids at or past `partition_count` get no entry, and an
empty index yields an empty table rather than an error. -/
theorem distribute_partitions_spec (r : Ring)
    (hs : IndexSorted r.sorted_nodes_hash_set) :
    (r.sorted_nodes_hash_set = [] → r.distribute_partitions.partitions = []) ∧
    (∀ part_id, r.config.partition_count ≤ part_id →
      btGet part_id r.distribute_partitions.partitions = none) ∧
    (∀ part_id, part_id < r.config.partition_count →
      r.sorted_nodes_hash_set = [] ∨
      ∃ p ∈ r.sorted_nodes_hash_set,
        btGet part_id r.distribute_partitions.partitions = some p.2 ∧
        ((r.hash_partition_id part_id ≤ p.1 ∧
            ∀ q ∈ r.sorted_nodes_hash_set,
              r.hash_partition_id part_id ≤ q.1 → p.1 ≤ q.1) ∨
         ((∀ q ∈ r.sorted_nodes_hash_set, q.1 < r.hash_partition_id part_id) ∧
            ∀ q ∈ r.sorted_nodes_hash_set, p.1 ≤ q.1))) := by
  have hparts : r.distribute_partitions.partitions = r.partitionsOf := rfl
  refine ⟨?_, ?_, ?_⟩
  · intro h
    rw [hparts]
    exact partitionsOf_empty h
  · intro part_id hge
    rw [hparts, btGet_partitionsOf, if_neg (by omega)]
  · intro part_id hlt
    by_cases hempty : r.sorted_nodes_hash_set = []
    · exact Or.inl hempty
    · right
      cases hp : ringLookupEntry r.sorted_nodes_hash_set
          (r.hash_partition_id part_id) with
      | none => exact absurd (ringLookupEntry_eq_none.mp hp) hempty
      | some p =>
        refine ⟨p, ringLookupEntry_mem hp, ?_, ringLookupEntry_spec hs hp⟩
        rw [hparts, btGet_partitionsOf, if_pos hlt, btGet_find_closest r hs, hp]
        rfl

/-- C8: `add_node` fails (with the duplicate-node error) exactly when the
node's id is already registered, and `remove_node` fails (with the
node-not-found error) exactly when the id is not registered; in all other
cases each operation succeeds. -/
theorem add_remove_error_iff (r : Ring) (node id : NodeId) :
    ((∃ e, (r.add_node node).2 = .error e) ↔ node ∈ r.nodes) ∧
    ((r.add_node node).2 = .ok node ↔ node ∉ r.nodes) ∧
    ((∃ e, (r.remove_node id).2 = .error e) ↔ id ∉ r.nodes) ∧
    ((r.remove_node id).2 = .ok () ↔ id ∈ r.nodes) := by
  refine ⟨?_, ?_, ?_, ?_⟩
  · by_cases hn : node ∈ r.nodes
    · rw [add_node_eq_err hn]
      simp [hn]
    · rw [add_node_eq_ok hn]
      simp [hn]
  · by_cases hn : node ∈ r.nodes
    · rw [add_node_eq_err hn]
      simp [hn]
    · rw [add_node_eq_ok hn]
      simp [hn]
  · by_cases hi : id ∈ r.nodes
    · rw [remove_node_eq_ok hi]
      simp [hi]
    · rw [remove_node_eq_err hi]
      simp [hi]
  · by_cases hi : id ∈ r.nodes
    · rw [remove_node_eq_ok hi]
      simp [hi]
    · rw [remove_node_eq_err hi]
      simp [hi]

/-- C9: Construction returns the invalid-config error exactly when
`replication_factor` or `partition_count` is zero; on success the ring has
an empty registry, empty index and empty partition table.  (`new` is
`with_hasher` at the default hasher, an instance of the `hasher`
parameter.) -/
theorem with_hasher_validates (config : Config) (hasher : List Byte → Nat) :
    ((∃ e, with_hasher config hasher = .error e) ↔
      config.replication_factor = 0 ∨ config.partition_count = 0) ∧
    (∀ r, with_hasher config hasher = .ok r →
      r.config = config ∧ r.nodes = [] ∧ r.sorted_nodes_hash_set = [] ∧
      r.partitions = []) := by
  constructor
  · unfold with_hasher Config.validate
    by_cases h1 : config.partition_count = 0
    · rw [if_pos h1]
      simp [h1]
    · rw [if_neg h1]
      by_cases h2 : config.replication_factor = 0
      · rw [if_pos h2]
        simp [h1, h2]
      · rw [if_neg h2]
        simp [h1, h2]
  · intro r hr
    obtain ⟨hc, _, hn, hidx, hp, _, _⟩ := with_hasher_ok hr
    exact ⟨hc, hn, hidx, hp⟩

/-- C10: When `add_node` fails because the id is present, or `remove_node`
fails because the id is absent, the returned state — registry, index and
partition table — is exactly the state before the call. -/
theorem failed_ops_leave_state_unchanged (r : Ring) (node id : NodeId) :
    (∀ r' e, r.add_node node = (r', .error e) → r' = r) ∧
    (∀ r' e, r.remove_node id = (r', .error e) → r' = r) := by
  constructor
  · intro r' e heq
    by_cases hn : node ∈ r.nodes
    · rw [add_node_eq_err hn] at heq
      exact (congrArg Prod.fst heq).symm
    · rw [add_node_eq_ok hn] at heq
      exact absurd (congrArg Prod.snd heq) (by simp)
  · intro r' e heq
    by_cases hi : id ∈ r.nodes
    · rw [remove_node_eq_ok hi] at heq
      exact absurd (congrArg Prod.snd heq) (by simp)
    · rw [remove_node_eq_err hi] at heq
      exact (congrArg Prod.fst heq).symm

/-- C2: `get_preference_list k` walks the index entries in ascending hash
order starting at `hash(k)`, wrapping around once (the entries at hashes
`≥ hash(k)` followed by those below, as in the definition), collecting each
node the first time its id is seen; the result has pairwise-distinct ids
and length at most `replication_factor`, it has length exactly
`replication_factor` when the index holds at least that many distinct
nodes, and otherwise it consists of exactly all distinct nodes of the
index. -/
theorem get_preference_list_spec (r : Ring) (k : List Byte)
    (hrf : 0 < r.config.replication_factor) :
    (r.get_preference_list k).Nodup ∧
    (r.get_preference_list k).length ≤ r.config.replication_factor ∧
    (r.config.replication_factor ≤ (distinctIds r.sorted_nodes_hash_set).card →
      (r.get_preference_list k).length = r.config.replication_factor) ∧
    ((distinctIds r.sorted_nodes_hash_set).card < r.config.replication_factor →
      (r.get_preference_list k).toFinset = distinctIds r.sorted_nodes_hash_set)
    := by
  have hdef : r.get_preference_list k =
      prefLoop r.config.replication_factor
        (r.sorted_nodes_hash_set.filter
            (fun p => decide (r.hash_key k ≤ p.1)) ++
         r.sorted_nodes_hash_set.filter
            (fun p => decide (p.1 < r.hash_key k)))
        [] := rfl
  have hfeq : r.sorted_nodes_hash_set.filter
        (fun p => decide (p.1 < r.hash_key k)) =
      r.sorted_nodes_hash_set.filter
        (fun p => !decide (r.hash_key k ≤ p.1)) := by
    apply List.filter_congr
    intro x _
    by_cases hx : r.hash_key k ≤ x.1
    · simp [hx]
    · simp [hx]
      omega
  have hperm : (r.sorted_nodes_hash_set.filter
        (fun p => decide (r.hash_key k ≤ p.1)) ++
      r.sorted_nodes_hash_set.filter
        (fun p => decide (p.1 < r.hash_key k))).Perm
      r.sorted_nodes_hash_set := by
    rw [hfeq]
    exact List.filter_append_perm _ _
  have hids : ((r.sorted_nodes_hash_set.filter
        (fun p => decide (r.hash_key k ≤ p.1)) ++
      r.sorted_nodes_hash_set.filter
        (fun p => decide (p.1 < r.hash_key k))).map Prod.snd).toFinset =
      distinctIds r.sorted_nodes_hash_set := by
    unfold distinctIds
    ext x
    simp only [List.mem_toFinset]
    exact (hperm.map Prod.snd).mem_iff
  rw [hdef]
  have hnd := @prefLoop_nodup r.config.replication_factor
    (r.sorted_nodes_hash_set.filter
        (fun p => decide (r.hash_key k ≤ p.1)) ++
      r.sorted_nodes_hash_set.filter
        (fun p => decide (p.1 < r.hash_key k)))
    [] List.nodup_nil
  have hlen := @prefLoop_length_le r.config.replication_factor
    (r.sorted_nodes_hash_set.filter
        (fun p => decide (r.hash_key k ≤ p.1)) ++
      r.sorted_nodes_hash_set.filter
        (fun p => decide (p.1 < r.hash_key k)))
    [] (by simpa using hrf)
  have hcard := List.toFinset_card_of_nodup hnd
  have hfin := @prefLoop_finish r.config.replication_factor
    (r.sorted_nodes_hash_set.filter
        (fun p => decide (r.hash_key k ≤ p.1)) ++
      r.sorted_nodes_hash_set.filter
        (fun p => decide (p.1 < r.hash_key k)))
    [] (by simpa using hrf)
  have hsub : (prefLoop r.config.replication_factor
      (r.sorted_nodes_hash_set.filter
          (fun p => decide (r.hash_key k ≤ p.1)) ++
        r.sorted_nodes_hash_set.filter
          (fun p => decide (p.1 < r.hash_key k))) []).toFinset ⊆
      distinctIds r.sorted_nodes_hash_set := by
    intro x hx
    rw [List.mem_toFinset] at hx
    rcases prefLoop_subset x hx with h2 | h2
    · exact absurd h2 (List.not_mem_nil x)
    · rw [← hids]
      exact List.mem_toFinset.mpr h2
  refine ⟨hnd, hlen, ?_, ?_⟩
  · intro hge
    rcases hfin with h1 | h1
    · exact h1
    · rw [List.toFinset_nil, Finset.empty_union, hids] at h1
      have h2 := hcard
      rw [h1] at h2
      omega
  · intro hlt
    rcases hfin with h1 | h1
    · have h2 := Finset.card_le_card hsub
      rw [hcard] at h2
      omega
    · rw [List.toFinset_nil, Finset.empty_union, hids] at h1
      exact h1

/-- C4: For a ring not containing id `node` (and, as in any reachable
state, with no leftover index entry for it), `add_node` succeeds, returns
the node handle, registers the id, and — when the replica hashes are
collision-free — the index gains exactly the `replication_factor` entries
keyed by the hashes of `"{node}:{i}"` for `i < replication_factor`, after
which `virtual_nodes_per_node` counts `replication_factor` entries for the
node. -/
theorem add_node_inserts_replicas (r : Ring) (node : NodeId)
    (hs : IndexSorted r.sorted_nodes_hash_set)
    (hnotin : node ∉ r.nodes)
    (hnoent : ∀ p ∈ r.sorted_nodes_hash_set, p.2 ≠ node)
    (hfresh : FreshHashes r node) :
    (r.add_node node).2 = .ok node ∧
    node ∈ (r.add_node node).1.nodes ∧
    (∀ m, m ∈ (r.add_node node).1.nodes ↔ m = node ∨ m ∈ r.nodes) ∧
    (∀ p, p ∈ (r.add_node node).1.sorted_nodes_hash_set ↔
      p ∈ r.sorted_nodes_hash_set ∨
      ∃ i < r.config.replication_factor,
        p = (r.hash_with_replica_idx node i, node)) ∧
    (r.add_node node).1.virtual_nodes_per_node node
      = r.config.replication_factor := by
  rw [add_node_eq_ok hnotin]
  refine ⟨rfl, List.mem_cons_self _ _, ?_, ?_, ?_⟩
  · intro m
    exact List.mem_cons
  · intro p
    show p ∈ r.insertReplicas node ↔ _
    exact mem_insertReplicas hfresh
  · show (r.insertReplicas node).countP (fun p => decide (p.2 = node))
        = r.config.replication_factor
    refine countP_entries (insertReplicas_sorted hs) ?_ ?_ hfresh.1
    · intro p hp hpv
      rw [mem_insertReplicas hfresh] at hp
      rcases hp with hold | ⟨i, hi, rfl⟩
      · exact absurd hpv (hnoent p hold)
      · exact ⟨i, hi, rfl⟩
    · intro i hi
      rw [mem_insertReplicas hfresh]
      exact Or.inr ⟨i, hi, rfl⟩

theorem btGet_partitions_lookup (r : Ring)
    (hs : IndexSorted r.sorted_nodes_hash_set) {part_id : Nat}
    (hlt : part_id < r.config.partition_count) :
    btGet part_id r.partitionsOf =
      (ringLookupEntry r.sorted_nodes_hash_set
        (r.hash_partition_id part_id)).map Prod.snd := by
  rw [btGet_partitionsOf, if_pos hlt, btGet_find_closest r hs]

/-- C5: In any reachable state (each membership change having run the
redistribution), if at least one node is registered the partition table has
exactly one entry per partition id below `partition_count` and every node
it maps to is registered; if no node remains the table is empty. -/
theorem partition_table_complete (r : Ring) (hreach : ReachableNC r) :
    (r.nodes = [] → r.partitions = []) ∧
    (r.nodes ≠ [] →
      r.partitions.length = r.config.partition_count ∧
      (∀ part_id, part_id < r.config.partition_count →
        ∃ n, (part_id, n) ∈ r.partitions) ∧
      (∀ pn ∈ r.partitions,
        pn.1 < r.config.partition_count ∧ pn.2 ∈ r.nodes)) := by
  have hwf := reachable_WF hreach
  obtain ⟨hrf, hpc, hs, hnd, hforward, hback, hinj, hpart⟩ := reachable_WF hreach
  constructor
  · intro h
    rw [hpart]
    exact partitionsOf_empty ((WF_index_nil_iff hwf).mpr h)
  · intro hne
    have hidxne : r.sorted_nodes_hash_set ≠ [] := by
      intro h
      exact hne ((WF_index_nil_iff hwf).mp h)
    have hlookup : ∀ h', ∃ p, ringLookupEntry r.sorted_nodes_hash_set h'
        = some p := by
      intro h'
      cases hp : ringLookupEntry r.sorted_nodes_hash_set h' with
      | none => exact absurd (ringLookupEntry_eq_none.mp hp) hidxne
      | some p => exact ⟨p, rfl⟩
    refine ⟨?_, ?_, ?_⟩
    · rw [hpart, partitionsOf_eq_filterMap]
      rw [length_filterMap_all_some, List.length_range]
      intro part_id hmem
      obtain ⟨p, hp⟩ := hlookup (r.hash_partition_id part_id)
      rw [btGet_find_closest r hs, hp]
      rfl
    · intro part_id hlt
      obtain ⟨p, hp⟩ := hlookup (r.hash_partition_id part_id)
      refine ⟨p.2, ?_⟩
      rw [hpart]
      refine mem_partitionsOf.mpr ⟨hlt, ?_⟩
      rw [btGet_find_closest r hs, hp]
      rfl
    · intro pn hmem
      rw [hpart] at hmem
      have hchar := mem_partitionsOf.mp hmem
      refine ⟨hchar.1, ?_⟩
      exact (hforward _ (btGet_mem hchar.2)).1

/-- C6: Removing a registered node `i` (under the standing no-collision
assumption, here expressed by well-formedness) changes only lookups whose
closest-clockwise entry belonged to `i`: every key — and every partition
id — whose resolved index entry carries a node other than `i` resolves to
the same node before and after `remove_node i`. -/
theorem remove_node_minimal_disruption (r : Ring) (i : NodeId)
    (hwf : WF r) (hin : i ∈ r.nodes) :
    ∀ r', r.remove_node i = (r', .ok ()) →
      (∀ k p, ringLookupEntry r.sorted_nodes_hash_set (r.hash_key k) = some p →
        p.2 ≠ i → r'.get_key k = r.get_key k) ∧
      (∀ part_id p, part_id < r.config.partition_count →
        ringLookupEntry r.sorted_nodes_hash_set
          (r.hash_partition_id part_id) = some p →
        p.2 ≠ i →
        btGet part_id r'.partitions = btGet part_id r.partitions) := by
  intro r' heq
  rw [remove_node_eq_ok hin] at heq
  have hr' : r' = Ring.distribute_partitions { r with
      sorted_nodes_hash_set := r.removeReplicas i
      nodes := r.nodes.filter (fun n => decide (n ≠ i)) } :=
    (congrArg Prod.fst heq).symm
  subst hr'
  have hfil := removeReplicas_eq_filter hwf hin
  have hs := hwf.2.2.1
  have hpart := hwf.2.2.2.2.2.2.2
  have hs' : IndexSorted (r.removeReplicas i) := removeReplicas_sorted hs
  constructor
  · intro k p hp hpi
    show (ringLookupEntry (r.removeReplicas i) (r.hash_key k)).map Prod.snd
        = (ringLookupEntry r.sorted_nodes_hash_set (r.hash_key k)).map Prod.snd
    rw [hfil, ringLookupEntry_filter_ne hp hpi, hp]
  · intro part_id p hlt hp hpi
    have h1 := btGet_partitions_lookup
      { r with
        sorted_nodes_hash_set := r.removeReplicas i
        nodes := r.nodes.filter (fun n => decide (n ≠ i)) } hs' hlt
    have h2 := btGet_partitions_lookup r hs hlt
    calc btGet part_id (Ring.distribute_partitions { r with
            sorted_nodes_hash_set := r.removeReplicas i
            nodes := r.nodes.filter (fun n => decide (n ≠ i)) }).partitions
        = (ringLookupEntry (r.removeReplicas i)
            (r.hash_partition_id part_id)).map Prod.snd := h1
      _ = some p.2 := by
            rw [hfil, ringLookupEntry_filter_ne hp hpi]
            rfl
      _ = (ringLookupEntry r.sorted_nodes_hash_set
            (r.hash_partition_id part_id)).map Prod.snd := by
            rw [hp]
            rfl
      _ = btGet part_id r.partitionsOf := h2.symm
      _ = btGet part_id r.partitions := by rw [hpart]

/-- C7: In every reachable state (under the standing no-collision
assumption baked into the reachability relation), the registry's id set
equals the set of distinct node ids referenced by the hash-space index,
and every registered node has exactly `replication_factor` index
entries. -/
theorem registry_index_invariant (r : Ring) (hreach : ReachableNC r) :
    distinctIds r.sorted_nodes_hash_set = r.nodes.toFinset ∧
    (∀ n ∈ r.nodes,
      r.virtual_nodes_per_node n = r.config.replication_factor) := by
  obtain ⟨hrf, hpc, hs, hnd, hforward, hback, hinj, hpart⟩ := reachable_WF hreach
  constructor
  · unfold distinctIds
    ext x
    simp only [List.mem_toFinset, List.mem_map]
    constructor
    · rintro ⟨p, hp, rfl⟩
      exact (hforward p hp).1
    · intro hx
      exact ⟨(r.hash_with_replica_idx x 0, x), hback x hx 0 hrf, rfl⟩
  · intro n hn
    show r.sorted_nodes_hash_set.countP (fun p => decide (p.2 = n))
        = r.config.replication_factor
    refine countP_entries hs ?_ (hback n hn) (hinj n hn)
    intro p hp hpv
    obtain ⟨_, j, hj, hkey⟩ := hforward p hp
    rw [hpv] at hkey
    exact ⟨j, hj, hkey⟩

/-! ## Concrete witnesses -/

theorem RW0_reachable : ReachableNC RW0 :=
  ReachableNC.init cfgW wHasher RW0 rfl

theorem RW1_reachable : ReachableNC RW1 :=
  ReachableNC.add RW0 "a" RW0_reachable (by decide) RW1 rfl

theorem RW2_reachable : ReachableNC RW2 :=
  ReachableNC.add RW1 "b" RW1_reachable (by decide) RW2 rfl

/-- Witness for C1 at the two-node ring `RW2` and key `[53]`. -/
theorem get_key_closest_clockwise_witness :
    IndexSorted RW2.sorted_nodes_hash_set ∧
    ((RW2.get_key [53] = none ↔ RW2.sorted_nodes_hash_set = []) ∧
     (RW2.sorted_nodes_hash_set ≠ [] →
       ∃ p ∈ RW2.sorted_nodes_hash_set, RW2.get_key [53] = some p.2 ∧
         ((RW2.hash_key [53] ≤ p.1 ∧
             ∀ q ∈ RW2.sorted_nodes_hash_set,
               RW2.hash_key [53] ≤ q.1 → p.1 ≤ q.1) ∨
          ((∀ q ∈ RW2.sorted_nodes_hash_set, q.1 < RW2.hash_key [53]) ∧
             ∀ q ∈ RW2.sorted_nodes_hash_set, p.1 ≤ q.1)))) :=
  ⟨by decide, get_key_closest_clockwise RW2 [53] (by decide)⟩

/-- Witness for C2 at the two-node ring `RW2` and key `[53]`. -/
theorem get_preference_list_spec_witness :
    0 < RW2.config.replication_factor ∧
    ((RW2.get_preference_list [53]).Nodup ∧
     (RW2.get_preference_list [53]).length ≤ RW2.config.replication_factor ∧
     (RW2.config.replication_factor ≤
        (distinctIds RW2.sorted_nodes_hash_set).card →
       (RW2.get_preference_list [53]).length
         = RW2.config.replication_factor) ∧
     ((distinctIds RW2.sorted_nodes_hash_set).card
        < RW2.config.replication_factor →
       (RW2.get_preference_list [53]).toFinset
         = distinctIds RW2.sorted_nodes_hash_set)) :=
  ⟨by decide, get_preference_list_spec RW2 [53] (by decide)⟩

/-- Witness for C3 at the two-node ring `RW2`. -/
theorem distribute_partitions_spec_witness :
    IndexSorted RW2.sorted_nodes_hash_set ∧
    ((RW2.sorted_nodes_hash_set = [] →
        RW2.distribute_partitions.partitions = []) ∧
     (∀ part_id, RW2.config.partition_count ≤ part_id →
        btGet part_id RW2.distribute_partitions.partitions = none) ∧
     (∀ part_id, part_id < RW2.config.partition_count →
        RW2.sorted_nodes_hash_set = [] ∨
        ∃ p ∈ RW2.sorted_nodes_hash_set,
          btGet part_id RW2.distribute_partitions.partitions = some p.2 ∧
          ((RW2.hash_partition_id part_id ≤ p.1 ∧
              ∀ q ∈ RW2.sorted_nodes_hash_set,
                RW2.hash_partition_id part_id ≤ q.1 → p.1 ≤ q.1) ∨
           ((∀ q ∈ RW2.sorted_nodes_hash_set,
               q.1 < RW2.hash_partition_id part_id) ∧
              ∀ q ∈ RW2.sorted_nodes_hash_set, p.1 ≤ q.1)))) :=
  ⟨by decide, distribute_partitions_spec RW2 (by decide)⟩

/-- Witness for C4: adding `"b"` to the one-node ring `RW1`. -/
theorem add_node_inserts_replicas_witness :
    IndexSorted RW1.sorted_nodes_hash_set ∧
    "b" ∉ RW1.nodes ∧
    (∀ p ∈ RW1.sorted_nodes_hash_set, p.2 ≠ "b") ∧
    FreshHashes RW1 "b" ∧
    ((RW1.add_node "b").2 = .ok "b" ∧
     "b" ∈ (RW1.add_node "b").1.nodes ∧
     (∀ m, m ∈ (RW1.add_node "b").1.nodes ↔ m = "b" ∨ m ∈ RW1.nodes) ∧
     (∀ p, p ∈ (RW1.add_node "b").1.sorted_nodes_hash_set ↔
       p ∈ RW1.sorted_nodes_hash_set ∨
       ∃ i < RW1.config.replication_factor,
         p = (RW1.hash_with_replica_idx "b" i, "b")) ∧
     (RW1.add_node "b").1.virtual_nodes_per_node "b"
       = RW1.config.replication_factor) :=
  ⟨by decide, by decide, by decide, by decide,
    add_node_inserts_replicas RW1 "b" (by decide) (by decide) (by decide)
      (by decide)⟩

/-- Witness for C5 at the reachable two-node ring `RW2`. -/
theorem partition_table_complete_witness :
    ReachableNC RW2 ∧
    ((RW2.nodes = [] → RW2.partitions = []) ∧
     (RW2.nodes ≠ [] →
       RW2.partitions.length = RW2.config.partition_count ∧
       (∀ part_id, part_id < RW2.config.partition_count →
         ∃ n, (part_id, n) ∈ RW2.partitions) ∧
       (∀ pn ∈ RW2.partitions,
         pn.1 < RW2.config.partition_count ∧ pn.2 ∈ RW2.nodes))) :=
  ⟨RW2_reachable, partition_table_complete RW2 RW2_reachable⟩

/-- Witness for C6: removing `"a"` from the two-node ring `RW2`. -/
theorem remove_node_minimal_disruption_witness :
    WF RW2 ∧ "a" ∈ RW2.nodes ∧
    (∀ r', RW2.remove_node "a" = (r', .ok ()) →
      (∀ k p, ringLookupEntry RW2.sorted_nodes_hash_set (RW2.hash_key k)
          = some p →
        p.2 ≠ "a" → r'.get_key k = RW2.get_key k) ∧
      (∀ part_id p, part_id < RW2.config.partition_count →
        ringLookupEntry RW2.sorted_nodes_hash_set
          (RW2.hash_partition_id part_id) = some p →
        p.2 ≠ "a" →
        btGet part_id r'.partitions = btGet part_id RW2.partitions)) :=
  ⟨by decide, by decide,
    remove_node_minimal_disruption RW2 "a" (by decide) (by decide)⟩

/-- Witness for C7 at the reachable two-node ring `RW2`. -/
theorem registry_index_invariant_witness :
    ReachableNC RW2 ∧
    (distinctIds RW2.sorted_nodes_hash_set = RW2.nodes.toFinset ∧
     (∀ n ∈ RW2.nodes,
       RW2.virtual_nodes_per_node n = RW2.config.replication_factor)) :=
  ⟨RW2_reachable, registry_index_invariant RW2 RW2_reachable⟩

end HashRing
